import Mathlib

/-!
Verification of the credential-pool scheduler and response-extraction layer
of the DockerHub-organization discovery module (`actions/gemini_discover.py`).

The Python source is shallowly embedded: pure helpers become Lean functions,
the module-level key-pool globals become an explicit `Pool` record, the
`_call_gemini` retry loop becomes a fuel-indexed step function over an
explicit machine state, and the network is an oracle assigning an outcome to
every (key, model, payload-mode) request.  Machine integers are `Int`/`Nat`;
timestamps are modelled as integers (the Python code only adds and compares
`time.time()` values).  Fallible Python code (`json.loads`, `try/except`)
is modelled with `Option` and explicit exception-shaped control flow.
-/

namespace GeminiDiscover

/-- Characters the JSON grammar treats as insignificant whitespace
(Python's `json` module skips exactly space, tab, newline, carriage return
between tokens). -/
def jsonWs (c : Char) : Bool :=
  c = ' ' || c = '\t' || c = '\n' || c = '\r'

/-- Characters stripped by Python's `str.strip()` (ASCII whitespace; the
less-common Unicode whitespace code points do not occur in the data handled
here). -/
def pyWsChar (c : Char) : Bool :=
  c = ' ' || c = '\t' || c = '\n' || c = '\r' || c = Char.ofNat 11 || c = Char.ofNat 12

/-- Python `str.strip()`: drop leading and trailing whitespace. -/
def pyStrip (s : String) : String :=
  String.mk (((s.data.dropWhile pyWsChar).reverse.dropWhile pyWsChar).reverse)

/-- ASCII lower-casing of one character (`str.lower()`; the DockerHub
candidate data is ASCII). -/
def lowerChar (c : Char) : Char :=
  if 'A' ≤ c ∧ c ≤ 'Z' then Char.ofNat (c.toNat + 32) else c

/-- Python `str.lower()`. -/
def pyLower (s : String) : String :=
  String.mk (s.data.map lowerChar)

/-- Values produced by `json.loads`.  Numbers keep their raw source token
(the classifier and extractor only ever inspect the *type* of a value, never
a numeric magnitude). -/
inductive Json where
  | jnull : Json
  | jbool : Bool → Json
  | jnum : String → Json
  | jstr : String → Json
  | jarr : List Json → Json
  | jobj : List (String × Json) → Json

open Json

/-- Opening brace character (written via its code point to keep braces out
of string literals). -/
def lbrace : Char := Char.ofNat 123

/-- Closing brace character. -/
def rbrace : Char := Char.ofNat 125

/-- Hex digit value, if any. -/
def hexVal (c : Char) : Option Nat :=
  if '0' ≤ c ∧ c ≤ '9' then some (c.toNat - '0'.toNat)
  else if 'a' ≤ c ∧ c ≤ 'f' then some (c.toNat - 'a'.toNat + 10)
  else if 'A' ≤ c ∧ c ≤ 'F' then some (c.toNat - 'A'.toNat + 10)
  else none

/-- Decode a `\uXXXX` escape: four hex digits, combining a high/low
surrogate pair into one scalar when both halves are present.  A lone
surrogate (representable in a Python `str` but not in a Lean `Char`) maps to
U+FFFD. -/
def decodeU (h1 h2 h3 h4 : Char) (rest : List Char) : Option (Char × List Char) :=
  match hexVal h1, hexVal h2, hexVal h3, hexVal h4 with
  | some a, some b, some c, some d =>
    let n := ((a * 16 + b) * 16 + c) * 16 + d
    if 0xD800 ≤ n ∧ n ≤ 0xDBFF then
      match rest with
      | '\\' :: 'u' :: g1 :: g2 :: g3 :: g4 :: rest2 =>
        match hexVal g1, hexVal g2, hexVal g3, hexVal g4 with
        | some a2, some b2, some c2, some d2 =>
          let n2 := ((a2 * 16 + b2) * 16 + c2) * 16 + d2
          if 0xDC00 ≤ n2 ∧ n2 ≤ 0xDFFF then
            some (Char.ofNat (0x10000 + (n - 0xD800) * 0x400 + (n2 - 0xDC00)), rest2)
          else some (Char.ofNat 0xFFFD, rest)
        | _, _, _, _ => some (Char.ofNat 0xFFFD, rest)
      | _ => some (Char.ofNat 0xFFFD, rest)
    else if 0xDC00 ≤ n ∧ n ≤ 0xDFFF then some (Char.ofNat 0xFFFD, rest)
    else some (Char.ofNat n, rest)
  | _, _, _, _ => none

/-- Parse the body of a JSON string (the opening quote already consumed),
returning the decoded characters and the remainder after the closing quote.
Mirrors the strict mode of `json.loads`: raw control characters below 0x20
are rejected, escapes are the standard JSON set. -/
def parseStrBody (fuel : Nat) (l : List Char) : Option (List Char × List Char) :=
  match fuel with
  | 0 => none
  | f + 1 =>
    match l with
    | [] => none
    | c :: r =>
      if c = '"' then some ([], r)
      else if c = '\\' then
        match r with
        | [] => none
        | e :: r2 =>
          if e = 'u' then
            match r2 with
            | h1 :: h2 :: h3 :: h4 :: r3 =>
              match decodeU h1 h2 h3 h4 r3 with
              | some (ch, r4) =>
                match parseStrBody f r4 with
                | some (cs, rest) => some (ch :: cs, rest)
                | none => none
              | none => none
            | _ => none
          else
            let esc : Option Char :=
              if e = '"' then some '"'
              else if e = '\\' then some '\\'
              else if e = '/' then some '/'
              else if e = 'b' then some (Char.ofNat 8)
              else if e = 'f' then some (Char.ofNat 12)
              else if e = 'n' then some '\n'
              else if e = 'r' then some '\r'
              else if e = 't' then some '\t'
              else none
            match esc with
            | some ch =>
              match parseStrBody f r2 with
              | some (cs, rest) => some (ch :: cs, rest)
              | none => none
            | none => none
      else if c.toNat < 32 then none
      else
        match parseStrBody f r with
        | some (cs, rest) => some (c :: cs, rest)
        | none => none

/-- Is `c` an ASCII digit `1`–`9`? -/
def isDigit19 (c : Char) : Bool := '1' ≤ c && c ≤ '9'

/-- Parse a JSON number token (regex
`-?(0|[1-9][0-9]*)(\.[0-9]+)?([eE][-+]?[0-9]+)?`), returning the raw token
and the remainder.  Like the regex, an ill-formed fraction or exponent is
simply not consumed. -/
def parseNumTok (l : List Char) : Option (List Char × List Char) :=
  let (sign, l1) :=
    match l with
    | '-' :: r => (['-'], r)
    | _ => (([] : List Char), l)
  match l1 with
  | [] => none
  | c :: r =>
    if c = '0' ∨ isDigit19 c then
      let (intp, l2) :=
        if c = '0' then ([c], r)
        else (c :: r.takeWhile Char.isDigit, r.dropWhile Char.isDigit)
      let (frac, l3) :=
        match l2 with
        | '.' :: d :: r2 =>
          if d.isDigit then
            ('.' :: d :: r2.takeWhile Char.isDigit, r2.dropWhile Char.isDigit)
          else (([] : List Char), l2)
        | _ => (([] : List Char), l2)
      let (expo, l4) :=
        match l3 with
        | e :: r2 =>
          if e = 'e' ∨ e = 'E' then
            match r2 with
            | s :: d :: r3 =>
              if (s = '+' ∨ s = '-') ∧ d.isDigit then
                (e :: s :: d :: r3.takeWhile Char.isDigit, r3.dropWhile Char.isDigit)
              else if s.isDigit then
                (e :: s :: r2.tail.takeWhile Char.isDigit, r2.tail.dropWhile Char.isDigit)
              else (([] : List Char), l3)
            | [s] =>
              if s.isDigit then (e :: [s], ([] : List Char))
              else (([] : List Char), l3)
            | [] => (([] : List Char), l3)
          else (([] : List Char), l3)
        | [] => (([] : List Char), l3)
      some (sign ++ intp ++ frac ++ expo, l4)
    else none

/-- Does `pre` occur at the head of `l`? -/
def matchesAt : List Char → List Char → Bool
  | [], _ => true
  | _ :: _, [] => false
  | p :: ps, c :: cs => p = c && matchesAt ps cs

/-- Python `s.endswith(suffix)`. -/
def pyEndsWith (s suffix : String) : Bool :=
  matchesAt suffix.data.reverse s.data.reverse

mutual

/-- One JSON value, leading whitespace allowed; mirrors `json.loads`
(including its acceptance of `NaN`, `Infinity`, `-Infinity`). -/
def parseVal (fuel : Nat) (l : List Char) : Option (Json × List Char) :=
  match fuel with
  | 0 => none
  | f + 1 =>
    let l1 := l.dropWhile jsonWs
    match l1 with
    | [] => none
    | c :: r =>
      if c = lbrace then
        let r1 := r.dropWhile jsonWs
        match r1 with
        | c2 :: r2 =>
          if c2 = rbrace then some (jobj [], r2)
          else parseMembers f [] r
        | [] => none
      else if c = '[' then
        let r1 := r.dropWhile jsonWs
        match r1 with
        | ']' :: r2 => some (jarr [], r2)
        | _ => parseItems f [] r
      else if c = '"' then
        match parseStrBody (l.length + 1) r with
        | some (cs, rest) => some (jstr (String.mk cs), rest)
        | none => none
      else if matchesAt ['t', 'r', 'u', 'e'] l1 then some (jbool true, l1.drop 4)
      else if matchesAt ['f', 'a', 'l', 's', 'e'] l1 then some (jbool false, l1.drop 5)
      else if matchesAt ['n', 'u', 'l', 'l'] l1 then some (jnull, l1.drop 4)
      else if matchesAt ['N', 'a', 'N'] l1 then some (jnum "NaN", l1.drop 3)
      else if matchesAt ['I', 'n', 'f', 'i', 'n', 'i', 't', 'y'] l1 then
        some (jnum "Infinity", l1.drop 8)
      else if matchesAt ['-', 'I', 'n', 'f', 'i', 'n', 'i', 't', 'y'] l1 then
        some (jnum "-Infinity", l1.drop 9)
      else
        match parseNumTok l1 with
        | some (tok, rest) => some (jnum (String.mk tok), rest)
        | none => none

/-- Array elements after the opening `[` (nonempty case). -/
def parseItems (fuel : Nat) (acc : List Json) (l : List Char) : Option (Json × List Char) :=
  match fuel with
  | 0 => none
  | f + 1 =>
    match parseVal f l with
    | none => none
    | some (v, rest) =>
      let r1 := rest.dropWhile jsonWs
      match r1 with
      | ',' :: r2 => parseItems f (acc ++ [v]) r2
      | ']' :: r2 => some (jarr (acc ++ [v]), r2)
      | _ => none

/-- Object members after the opening brace (nonempty case). -/
def parseMembers (fuel : Nat) (acc : List (String × Json)) (l : List Char) :
    Option (Json × List Char) :=
  match fuel with
  | 0 => none
  | f + 1 =>
    let l1 := l.dropWhile jsonWs
    match l1 with
    | '"' :: r =>
      match parseStrBody (l1.length + 1) r with
      | some (kcs, r2) =>
        let r3 := r2.dropWhile jsonWs
        match r3 with
        | ':' :: r4 =>
          match parseVal f r4 with
          | some (v, r5) =>
            let r6 := r5.dropWhile jsonWs
            match r6 with
            | ',' :: r7 => parseMembers f (acc ++ [(String.mk kcs, v)]) r7
            | c :: r7 =>
              if c = rbrace then some (jobj (acc ++ [(String.mk kcs, v)]), r7)
              else none
            | [] => none
          | none => none
        | _ => none
      | none => none
    | _ => none

end

/-- Model of `json.loads`: a single JSON document with only whitespace around it. -/
def jsonParse (s : String) : Option Json :=
  match parseVal (4 * s.length + 8) s.data with
  | some (v, rest) => if (rest.dropWhile jsonWs).isEmpty then some v else none
  | none => none

/-!  ## Response extractor (grounded mode, `_call_gemini` lines 322–339)  -/

/-- If `j` is a parsed array whose elements are all strings, return them. -/
def allStrings : List Json → Option (List String)
  | [] => some []
  | jstr s :: r => (allStrings r).map (s :: ·)
  | _ :: _ => none

/-- The test `isinstance(parsed, list) and all(isinstance(x, str) for x in parsed)`:
the extractor's qualification test, yielding the string list. -/
def asStrList : Option Json → Option (List String)
  | some (jarr xs) => allStrings xs
  | _ => none

/-- All matches of `re.finditer(r'(\[[^\[\]]*\])', text)`: maximal
bracket-delimited spans containing no inner bracket, scanned left to right.
The second argument is the span in progress (`some acc` once an
unmatched `[` has been seen); on an inner `[` the attempt restarts there,
exactly as the regex engine resumes at the next position. -/
def scanAux : List Char → Option (List Char) → List (List Char)
  | [], _ => []
  | c :: r, none => if c = '[' then scanAux r (some []) else scanAux r none
  | c :: r, some acc =>
    if c = ']' then ('[' :: acc.reverse ++ [']']) :: scanAux r none
    else if c = '[' then scanAux r (some [])
    else scanAux r (some (c :: acc))

/-- Non-nested bracket spans of a text, as strings. -/
def spansOf (t : String) : List String :=
  (scanAux t.data none).map (fun cs => String.mk cs)

/-- The code's scan fold: `result = []`, overwritten by every span that
parses as a list of strings (last qualifying span wins, with `[]` both the
initial value and a possible qualifying result). -/
def extractScanList (t : String) : List String :=
  (spansOf t).foldl
    (fun acc sp =>
      match asStrList (jsonParse sp) with
      | some l => l
      | none => acc)
    []

/-- The spec's description of step 2 in isolation: the last qualifying
span, or `none` when no span qualifies (kept distinct from a qualifying
empty array, which the code cannot distinguish from the initial value). -/
def lastStringArray (t : String) : Option (List String) :=
  (spansOf t).foldl
    (fun acc sp =>
      match asStrList (jsonParse sp) with
      | some l => some l
      | none => acc)
    none

/-- Content up to (excluding) the first `]`, if one occurs in `l`. -/
def firstClose (l : List Char) : Option (List Char) :=
  if (l.dropWhile (· ≠ ']')).isEmpty then none else some (l.takeWhile (· ≠ ']'))

/-- Model of `re.search` of the pattern `\[` `[\s\S]*?` `\]` — the code's fallback
match.  The lazy quantifier makes this span run from a `[` to the *first*
`]` after it; the search scans positions left to right. -/
def lazySearch : List Char → Option (List Char)
  | [] => none
  | c :: r =>
    if c = '[' then
      match firstClose r with
      | some content => some ('[' :: content ++ [']'])
      | none => lazySearch r
    else lazySearch r

/-- The fallback span as the amended claim describes it: from the first `[`
in the text to the first `]` after it. -/
def specLazySpan (l : List Char) : Option (List Char) :=
  match l.dropWhile (· ≠ '[') with
  | [] => none
  | _ :: after =>
    match firstClose after with
    | some content => some ('[' :: content ++ [']'])
    | none => none

/-- The fallback span as claim C4 states it (following spec §4.5 step 3):
from the first `[` in the text to the *last* `]` in the whole text. -/
def specGreedySpan (l : List Char) : Option (List Char) :=
  match l.dropWhile (· ≠ '[') with
  | [] => none
  | _ :: after =>
    let upto := (after.reverse.dropWhile (· ≠ ']')).reverse
    if upto.isEmpty then none else some ('[' :: upto)

/-- Result the claimed greedy fallback would produce: parse the greedy span,
accept only a list of strings. -/
def specGreedyResult (t : String) : List String :=
  match specGreedySpan t.data with
  | some sp => (asStrList (jsonParse (String.mk sp))).getD []
  | none => []

/-- The full grounded-mode extractor (`_call_gemini` lines 322–339): scan
fold, then — whenever the fold produced the empty list — the lazy
single-span fallback. -/
def extract (t : String) : List String :=
  let r := extractScanList t
  if r.isEmpty then
    match lazySearch t.data with
    | some sp => (asStrList (jsonParse (String.mk sp))).getD []
    | none => []
  else r

/-!  ## 429 error-body classifier (`_parse_429`)  -/

/-- Lookup in an association list modelling a Python `dict`
(`d.get(k, default)`). -/
def alistGetD (l : List (String × Json)) (k : String) (d : Json) : Json :=
  match l.find? (fun p => p.1 = k) with
  | some p => p.2
  | none => d

/-- A Python `dict` built by `json.loads` keeps the *last* binding of a
duplicated key, so lookups search from the right. -/
def pyDictGetD (l : List (String × Json)) (k : String) (d : Json) : Json :=
  alistGetD l.reverse k d

/-- Model of `re.search` of `limit:` `\s*` `0` over `msg` (no IGNORECASE flag): does
`msg` contain `limit:` followed by a whitespace run and then `0`?  Because
no whitespace character is `0`, the backtracking search succeeds at a
position exactly when the character after the maximal whitespace run is
`0`. -/
def limitZeroAt (l : List Char) : Bool :=
  matchesAt ['l', 'i', 'm', 'i', 't', ':'] l &&
    (match (l.drop 6).dropWhile pyWsChar with
     | '0' :: _ => true
     | _ => false)

/-- Search at every position. -/
def containsLimitZeroL : List Char → Bool
  | [] => false
  | c :: r => limitZeroAt (c :: r) || containsLimitZeroL r

/-- The value `bool(re.search(...))` for the daily-exhaustion pattern. -/
def containsLimitZero (msg : String) : Bool :=
  containsLimitZeroL msg.data

/-- The claimed case-insensitive variant (matching the pattern against the
lowercased message). -/
def containsLimitZeroCI (msg : String) : Bool :=
  containsLimitZero (pyLower msg)

/-- Digit-string value. -/
def digitsToNat (l : List Char) : Nat :=
  l.foldl (fun a c => a * 10 + (c.toNat - '0'.toNat)) 0

/-- Model of `re.match` of `(\d+)` followed by `int(...)`: the leading run of
digits, if nonempty. -/
def leadingInt (s : String) : Option Int :=
  let ds := s.data.takeWhile Char.isDigit
  if ds.isEmpty then none else some (digitsToNat ds)

/-- The `for detail in ...details` loop of `_parse_429`, threading the
current delay.  A detail that is not a dict, a non-string `@type`, or a
non-string `retryDelay` raises inside the `try` block, which aborts the
loop and keeps the delay accumulated so far (the surrounding `except`
swallows the exception). -/
def processDetails : List Json → Int → Int
  | [], d => d
  | jobj f :: rest, d =>
    (match pyDictGetD f "@type" (jstr "") with
     | jstr ts =>
       if pyEndsWith ts "RetryInfo" then
         match pyDictGetD f "retryDelay" (jstr "65s") with
         | jstr rs =>
           match leadingInt rs with
           | some n => processDetails rest n
           | none => processDetails rest d
         | _ => d
       else processDetails rest d
     | _ => d)
  | _ :: _, d => d

/-- The classifier `_parse_429(body)`, returning `(is_daily_exhausted, retry_delay_s)`.
Exception-shaped control flow: every path on which the Python code would
raise inside the `try` returns the values accumulated before the raise
(`is_daily` starts `False`, `delay` starts 65). -/
def parse429 (body : String) : Bool × Int :=
  match jsonParse body with
  | some (jobj fields) =>
    (match pyDictGetD fields "error" (jobj []) with
     | jobj ef =>
       (match pyDictGetD ef "message" (jstr "") with
        | jstr msg =>
          let isDaily := containsLimitZero msg
          let delay : Int :=
            match pyDictGetD ef "details" (jarr []) with
            | jarr ds => processDetails ds 65
            | _ => 65
          (isDaily, delay)
        | _ => (false, 65))
     | _ => (false, 65))
  | some _ => (false, 65)
  | none => (false, 65)

/-- The parsed error message, when the body parses as structured data with
an error-message field (the hypothesis of claim C3). -/
def msgOf (body : String) : Option String :=
  match jsonParse body with
  | some (jobj fields) =>
    (match pyDictGetD fields "error" (jobj []) with
     | jobj ef =>
       (match pyDictGetD ef "message" (jstr "") with
        | jstr msg => some msg
        | _ => none)
     | _ => none)
  | _ => none

/-- The `retryDelay` hint strings of the RetryInfo details, provided every
detail is well-formed (a dict with a string `@type`, and a string
`retryDelay` when it is a RetryInfo) — the "structured retry-hint"
hypothesis of C7. -/
def detailHints : List Json → Option (List String)
  | [] => some []
  | jobj f :: rest =>
    (match pyDictGetD f "@type" (jstr "") with
     | jstr ts =>
       if pyEndsWith ts "RetryInfo" then
         match pyDictGetD f "retryDelay" (jstr "65s") with
         | jstr rs => (detailHints rest).map (rs :: ·)
         | _ => none
       else detailHints rest
     | _ => none)
  | _ :: _ => none

/-- Retry hints reachable by `_parse_429`'s loop for a given body. -/
def hintsOf (body : String) : Option (List String) :=
  match jsonParse body with
  | some (jobj fields) =>
    (match pyDictGetD fields "error" (jobj []) with
     | jobj ef =>
       (match pyDictGetD ef "message" (jstr "") with
        | jstr _ =>
          (match pyDictGetD ef "details" (jarr []) with
           | jarr ds => detailHints ds
           | _ => none)
        | _ => none)
     | _ => none)
  | _ => none

/-!  ## Credential pool (module-level key state of `gemini_discover`)  -/

/-- The four module-level globals `_keys`, `_key_index`,
`_key_blocked_until`, `_key_daily_dead`.  Timestamps are integers; the two
dicts are association lists keyed by the key string. -/
structure Pool where
  keys : List String
  index : Nat
  blocked : List (String × Int)
  deadMap : List (String × Bool)

/-- Python dict assignment `d[k] = v` (replace any previous binding). -/
def dictSet {α : Type} (l : List (String × α)) (k : String) (v : α) :
    List (String × α) :=
  (k, v) :: l.filter (fun p => p.1 ≠ k)

/-- Python dict read `d.get(k, dflt)`. -/
def dictGetD {α : Type} (l : List (String × α)) (k : String) (d : α) : α :=
  match l.find? (fun p => p.1 = k) with
  | some p => p.2
  | none => d

/-- The read `_key_daily_dead.get(key)` — absent keys read as falsy. -/
def deadOf (p : Pool) (k : String) : Bool :=
  dictGetD p.deadMap k false

/-- The read `_key_blocked_until.get(key, 0)`. -/
def blockedUntil (p : Pool) (k : String) : Int :=
  dictGetD p.blocked k 0

/-- The reset `set_keys(keys)`: strip each key, drop empties, reset the cursor, clear
all throttle state, and mark every key alive.  The previous pool content is
ignored (the Python code overwrites all four globals). -/
def setKeys (_p : Pool) (keys : List String) : Pool :=
  let clean := (keys.map pyStrip).filter (fun k => k ≠ "")
  { keys := clean
    index := 0
    blocked := []
    deadMap := clean.map (fun k => (k, false)) }

/-- The filter `_live_keys()`: keys that are not daily-dead. -/
def liveKeys (p : Pool) : List String :=
  p.keys.filter (fun k => !deadOf p k)

/-- Cursor advance `_rotate_key()`. -/
def rotate (p : Pool) : Pool :=
  { p with index := (p.index + 1) % max p.keys.length 1 }

/-- Throttle `_park_key(key, retry_delay_s)`: block until `now + delay + 2`, then
advance the cursor. -/
def park (p : Pool) (key : String) (delay : Int) (now : Int) : Pool :=
  rotate { p with blocked := dictSet p.blocked key (now + delay + 2) }

/-- Retire `_kill_key(key)`: mark daily-dead, advance the cursor. -/
def kill (p : Pool) (key : String) : Pool :=
  rotate { p with deadMap := dictSet p.deadMap key true }

/-- A credential is usable when it is neither daily-dead nor currently
throttled (`not dead and now >= blocked_until`). -/
def isUsable (p : Pool) (now : Int) (k : String) : Bool :=
  !deadOf p k && decide (blockedUntil p k ≤ now)

/-- The scan loop of `_next_usable_key()`: at most `n` positions starting
at the cursor, rotating past unusable entries.  (The list read
`_keys[_key_index % len(_keys)]` is total because the caller guarantees a
nonempty key list; `getD` keeps the model total.) -/
def nextUsableAux (now : Int) : Nat → Pool → Option String × Pool
  | 0, p => (none, p)
  | n + 1, p =>
    let key := p.keys.getD (p.index % p.keys.length) ""
    if isUsable p now key then (some key, p) else nextUsableAux now n (rotate p)

/-- The scan `_next_usable_key()`. -/
def nextUsable (p : Pool) (now : Int) : Option String × Pool :=
  if p.keys.isEmpty then (none, p) else nextUsableAux now p.keys.length p

/-!  ## Scheduler loop (`_call_gemini`) as a machine over an oracle  -/

/-- The model priority list `MODELS`. -/
def MODELS : List String :=
  ["gemini-2.0-flash-lite", "gemini-2.0-flash", "gemini-1.5-flash", "gemini-1.5-pro"]

/-- The ceiling `MAX_TOTAL_WAIT_SECONDS`. -/
def MAX_TOTAL_WAIT : Int := 600

/-- Classified outcome of one HTTP request, as seen by the `try/except`
in `_call_gemini`: a successfully decoded response text, an
`urllib.error.HTTPError` with status code and body, or any other
exception. -/
inductive ReqOutcome where
  | success : String → ReqOutcome
  | http : Nat → String → ReqOutcome
  | exc : ReqOutcome

/-- The network oracle: outcome and elapsed wall-clock seconds of the
request sent with a given key, model and payload mode (`true` = the plain
fallback payload without the search tool). -/
def ReqEnv : Type := String → String → Bool → ReqOutcome × Int

/-- State of one `_call_gemini` invocation: the pool, the per-call `tried`
and `tried_plain` sets, the cumulative sleep time `spent_waiting`, the
current clock, and the trace of requests issued so far (key, model,
plain?). -/
structure MState where
  pool : Pool
  tried : List (String × String)
  triedPlain : List (String × String)
  spent : Int
  now : Int
  trace : List (String × String × Bool)

/-- Result of the `for model in MODELS` loop body: an early `return`, a
`break` after parking/killing (`rotated = True`), or falling through with
no rotation. -/
inductive InnerRes where
  | done : Option (List String) × String → InnerRes
  | rotated : InnerRes
  | fell : InnerRes

/-- Truthiness of a decoded JSON value (`if c` in the candidate list
comprehension).  For numbers the mantissa of the raw token decides;
`NaN`/`Infinity` are truthy. -/
def jTruthy : Json → Bool
  | jnull => false
  | jbool b => b
  | jstr s => s ≠ ""
  | jarr xs => !xs.isEmpty
  | jobj f => !f.isEmpty
  | jnum raw =>
    (raw.data.takeWhile (fun c => c ≠ 'e' ∧ c ≠ 'E')).any (fun c => isDigit19 c) ||
      raw.data.any (fun c => c = 'N' ∨ c = 'I')

/-- Python `str(c)` for a decoded JSON value (exact for the strings and integers
that occur in practice; an approximation of Python's `repr`-based rendering
for containers, which no verified property depends on). -/
def pyStr : Json → String
  | jnull => "None"
  | jbool true => "True"
  | jbool false => "False"
  | jnum raw => raw
  | jstr s => s
  | jarr _ => "[...]"
  | jobj _ => String.mk (lbrace :: '.' :: '.' :: '.' :: [rbrace])

/-- The comprehension `[str(c).strip().lower() for c in result if c]` applied to the grounded
extractor's result (whose elements are all strings). -/
def groundedCandidates (text : String) : List String :=
  ((extract text).filter (fun c => c ≠ "")).map (fun c => pyLower (pyStrip c))

/-- Plain-mode candidates: `json.loads(text)` (`[]` on decode error), then
the same comprehension, guarded by `isinstance(result, list)`. -/
def plainCandidates (text : String) : List String :=
  match jsonParse text with
  | some (jarr xs) => (xs.filter jTruthy).map (fun j => pyLower (pyStrip (pyStr j)))
  | some _ => []
  | none => []

/-- The per-request state update: `tried.add((key, model))` followed by
sending the request (recorded in the trace with its payload mode; the
clock advances by the request's duration). -/
def afterRequest (st : MState) (key model : String) (dt : Int) : MState :=
  { st with
    tried := (key, model) :: st.tried
    trace := st.trace ++ [(key, model, decide ((key, model) ∈ st.triedPlain))]
    now := st.now + dt }

/-- The grounded-payload-rejected bookkeeping of the 400 branch:
`tried_plain.add(pair); tried.discard(pair)`. -/
def markPlain (st : MState) (key model : String) : MState :=
  { st with
    triedPlain := (key, model) :: st.triedPlain
    tried := st.tried.filter (fun p => p ≠ (key, model)) }

/-- The `for model in MODELS` loop of `_call_gemini` for one key.  Each
branch mirrors the Python `try/except urllib.error.HTTPError` dispatch:
success returns candidates; 429 parks or kills the key and breaks with
`rotated = True`; 400 in grounded mode marks the pair for the plain payload
and un-tries it; 404, other codes and other exceptions continue with the
next model; 403 kills the key and breaks. -/
def tryModels (env : ReqEnv) (st : MState) (key : String) :
    List String → MState × InnerRes
  | [] => (st, .fell)
  | model :: rest =>
    if (key, model) ∈ st.tried then tryModels env st key rest
    else
      let usePlain : Bool := decide ((key, model) ∈ st.triedPlain)
      let stR := afterRequest st key model (env key model usePlain).2
      match (env key model usePlain).1 with
      | .success text =>
        (stR, .done
          (some (if usePlain then plainCandidates text else groundedCandidates text),
           "ok"))
      | .http code body =>
        if code = 429 then
          ({ stR with pool :=
              if (parse429 body).1 then kill stR.pool key
              else park stR.pool key (parse429 body).2 stR.now }, .rotated)
        else if code = 400 ∧ usePlain = false then
          tryModels env (markPlain stR key model) key rest
        else if code = 404 then tryModels env stR key rest
        else if code = 403 then ({ stR with pool := kill stR.pool key }, .rotated)
        else tryModels env stR key rest
      | .exc => tryModels env stR key rest

/-- The sleeper `_wait_for_any_key(spent_waiting)`: sleep until the earliest
throttled-but-alive key unblocks, honouring the total-wait ceiling.
Returns `(can_continue, state)` with `spent` and `now` updated exactly as
the Python code updates `spent_waiting` and the wall clock. -/
def waitForAnyKey (st : MState) : Bool × MState :=
  match liveKeys st.pool with
  | [] => (false, st)
  | k :: ks =>
    let wakeup := ks.foldl (fun a k' => min a (blockedUntil st.pool k'))
      (blockedUntil st.pool k)
    let sleep := max (wakeup - st.now + 1) 1
    if 0 < MAX_TOTAL_WAIT ∧ MAX_TOTAL_WAIT < st.spent + sleep then
      if MAX_TOTAL_WAIT - st.spent ≤ 0 then
        (false, { st with spent := MAX_TOTAL_WAIT })
      else
        (true, { st with
          now := st.now + (MAX_TOTAL_WAIT - st.spent)
          spent := MAX_TOTAL_WAIT })
    else
      (true, { st with now := st.now + sleep, spent := st.spent + sleep })

/-- Count of untried (live key, model) pairs — the `remaining` sum of
`_call_gemini`. -/
def remainingCount (st : MState) : Nat :=
  ((liveKeys st.pool).map
    (fun k => (MODELS.filter (fun m => decide ((k, m) ∉ st.tried))).length)).sum

/-- The duration `_wait_for_any_key` would sleep from state `st` (before
the ceiling cap). -/
def sleepAmount (st : MState) : Int :=
  match liveKeys st.pool with
  | [] => 1
  | k :: ks =>
    max ((ks.foldl (fun a k' => min a (blockedUntil st.pool k'))
      (blockedUntil st.pool k)) - st.now + 1) 1

/-- One `while True:` pass plus the rest of the loop, indexed by fuel
(`none` = fuel exhausted; the Python loop always terminates because `tried`
grows and sleeping is bounded, so any sufficiently large fuel reproduces
it).  Returns the final state and `_call_gemini`'s `(candidates, status)`
pair. -/
def callLoop (env : ReqEnv) : Nat → MState →
    Option (MState × (Option (List String) × String))
  | 0, _ => none
  | fuel + 1, st =>
    if liveKeys st.pool = [] then some (st, (none, "daily_dead"))
    else if remainingCount st = 0 then some (st, (none, "error"))
    else
      let nu := nextUsable st.pool st.now
      let st1 := { st with pool := nu.2 }
      match nu.1 with
      | none =>
        let w := waitForAnyKey st1
        if w.1 then callLoop env fuel w.2
        else some (w.2, (none, "max_wait"))
      | some key =>
        let tm := tryModels env st1 key MODELS
        match tm.2 with
        | .done res => some (tm.1, res)
        | .rotated => callLoop env fuel tm.1
        | .fell => callLoop env fuel { tm.1 with pool := rotate tm.1.pool }

/-- Entry point `_call_gemini` on a configured pool: per-call locals (`tried`,
`tried_plain`, `spent_waiting`) start empty/zero; the request trace is the
call's own. -/
def callGemini (env : ReqEnv) (fuel : Nat) (pool : Pool) (now : Int) :
    Option (MState × (Option (List String) × String)) :=
  if pool.keys.isEmpty then
    some (⟨pool, [], [], 0, now, []⟩, (none, "no_keys"))
  else callLoop env fuel ⟨pool, [], [], 0, now, []⟩

/-!  ## Discovery orchestrator (`discover_dockerhub`)  -/

/-- Model of `re.sub` keeping only the DockerHub alphabet `[a-z0-9-]`. -/
def allowedChar (c : Char) : Bool :=
  ('a' ≤ c && c ≤ 'z') || ('0' ≤ c && c ≤ '9') || c = '-'

/-- One candidate after character sanitisation. -/
def sanitizeName (c : String) : String :=
  String.mk (c.data.filter allowedChar)

/-- The sanitised, length-filtered candidate list (lines 433–434). -/
def validOf (cands : List String) : List String :=
  (cands.map sanitizeName).filter (fun c => decide (2 ≤ c.length ∧ c.length ≤ 64))

/-- The verification loop (lines 437–448): first `True` wins, `False` and
`None` both continue. -/
def verifyLoop (verify : String → Option Bool) :
    List String → Option String × String
  | [] => (none, "not_found")
  | u :: rest =>
    match verify u with
    | some true => (some ("https://hub.docker.com/u/" ++ u), "found")
    | _ => verifyLoop verify rest

/-- Sanitise-then-verify phase of `discover_dockerhub` (lines 432–448). -/
def discoverVerify (cands : List String) (verify : String → Option Bool) :
    Option String × String :=
  verifyLoop verify (validOf cands)

/-- Fragments of `re.split` on the class of `,` and newline: one fragment
per separator character.  A *run* of separators yields interior empty
fragments that Python's `[,\n]+` pattern would not produce, but the caller
filters out empty fragments, after which the two splittings agree. -/
def splitRunsAux : List Char → List Char → List String
  | [], acc => [String.mk acc.reverse]
  | c :: r, acc =>
    if c = ',' ∨ c = '\n' then String.mk acc.reverse :: splitRunsAux r []
    else splitRunsAux r (c :: acc)

/-- Split a raw credential string on commas and newlines. -/
def splitRuns (l : List Char) : List String :=
  splitRunsAux l []

/-- Fallback `_load_keys_from_env()`: `GEMINI_API_KEYS` or else `GEMINI_API_KEY`,
split on commas/newlines, stripped, empties dropped; `none` when both
variables are empty (in which case `set_keys` is not called at all). -/
def loadKeysFromEnv (envVars : List (String × String)) : Option (List String) :=
  let a := dictGetD envVars "GEMINI_API_KEYS" ""
  let raw := if a ≠ "" then a else dictGetD envVars "GEMINI_API_KEY" ""
  if raw ≠ "" then
    some ((splitRuns raw.data).map pyStrip |>.filter (fun k => k ≠ ""))
  else none

/-- Orchestrator `discover_dockerhub(program_url, verify_fn, ...)` with an injected
verification function.  Returns the machine state after the call together
with `(url?, status)`. -/
def discover (env : ReqEnv) (fuel : Nat) (verify : String → Option Bool)
    (envVars : List (String × String)) (pool : Pool) (now : Int) :
    Option (MState × (Option String × String)) :=
  let pool1 :=
    if pool.keys.isEmpty then
      match loadKeysFromEnv envVars with
      | some ks => setKeys pool ks
      | none => pool
    else pool
  if pool1.keys.isEmpty then
    some (⟨pool1, [], [], 0, now, []⟩, (none, "no_keys"))
  else
    match callLoop env fuel ⟨pool1, [], [], 0, now, []⟩ with
    | none => none
    | some (st', (candsOpt, status)) =>
      if status = "ok" then
        let cands := candsOpt.getD []
        if cands.isEmpty then some (st', (none, "not_found"))
        else some (st', discoverVerify cands verify)
      else some (st', (none, status))

/-!  ## Trace bookkeeping used by the attempt-tracking claims  -/

/-- Requests in a trace sent with the given key, model and payload mode. -/
def countMode (tr : List (String × String × Bool)) (k m : String) (b : Bool) : Nat :=
  (tr.filter (fun e => decide (e = (k, m, b)))).length

/-- Requests in a trace sent with the given (key, model) pair, in either
payload mode. -/
def countPair (tr : List (String × String × Bool)) (k m : String) : Nat :=
  (tr.filter (fun e => decide (e.1 = k ∧ e.2.1 = m))).length

/-- Trace of a finished `_call_gemini` run (empty if fuel ran out). -/
def traceOf (o : Option (MState × (Option (List String) × String))) :
    List (String × String × Bool) :=
  match o with
  | some (st, _) => st.trace
  | none => []

/-- Final machine state of a finished `_call_gemini` run. -/
def finalState (o : Option (MState × (Option (List String) × String))) : MState :=
  match o with
  | some (st, _) => st
  | none => ⟨⟨[], 0, [], []⟩, [], [], 0, 0, []⟩

/-- Candidate component of a finished `_call_gemini` run. -/
def finalRes (o : Option (MState × (Option (List String) × String))) :
    Option (List String) :=
  match o with
  | some (_, (c, _)) => c
  | none => none

/-- A pool with no configuration at all (used to seed `setKeys`, which
ignores its pool argument just as the Python function overwrites the
globals). -/
def emptyPool : Pool := ⟨[], 0, [], []⟩

/-- The attempt-tracking invariant of one `_call_gemini` run: each
(key, model) pair has been requested at most once per payload mode, and a
recorded request pins the pair inside the `tried`/`tried_plain` sets. -/
def TInv (st : MState) : Prop :=
  ∀ k m,
    countMode st.trace k m false ≤ 1 ∧
    countMode st.trace k m true ≤ 1 ∧
    (1 ≤ countMode st.trace k m false →
      (k, m) ∈ st.tried ∨ (k, m) ∈ st.triedPlain) ∧
    (1 ≤ countMode st.trace k m true →
      (k, m) ∈ st.tried ∧ (k, m) ∈ st.triedPlain)

/-- Environment driving the C5 counterexample: the cheapest model rejects
the grounded payload with HTTP 400 (no tool support), every other request
is a 404. -/
def envC5 : ReqEnv := fun _k m plain =>
  if plain then (.http 404 "", 0)
  else if m = "gemini-2.0-flash-lite" then (.http 400 "", 0)
  else (.http 404 "", 0)

/-- Environment for the C1 witness, daily-exhaustion side: every request
answers 429 with a `limit: 0` body. -/
def envC1Dead : ReqEnv := fun _ _ _ =>
  (.http 429 ("\x7b\"error\": \x7b\"message\": \"limit: 0\"\x7d\x7d"), 0)

/-- Environment for the C1 witness, wait-budget side: every request
answers 429 with a 700-second retry hint. -/
def envC1Wait : ReqEnv := fun _ _ _ =>
  (.http 429
    ("\x7b\"error\": \x7b\"details\": [\x7b\"@type\": \"g.RetryInfo\", \"retryDelay\": \"700s\"\x7d]\x7d\x7d"),
    0)

/-- Concrete state for the C1 witness, sleep-and-reenter side: one key,
throttled until t = 100, nothing tried yet. -/
def stC1Throttled : MState :=
  ⟨⟨["ka"], 0, [("ka", 100)], [("ka", false)]⟩, [], [], 0, 0, []⟩

/-- Status of a finished `discover_dockerhub` run. -/
def runStatus (o : Option (MState × (Option String × String))) : String :=
  match o with
  | some (_, (_, s)) => s
  | none => ""

/-- URL of a finished `discover_dockerhub` run. -/
def runUrl (o : Option (MState × (Option String × String))) : Option String :=
  match o with
  | some (_, (u, _)) => u
  | none => none

/-- Request trace of a finished `discover_dockerhub` run. -/
def runTrace (o : Option (MState × (Option String × String))) :
    List (String × String × Bool) :=
  match o with
  | some (st, _) => st.trace
  | none => []

/-!  # Theorems  -/

/-!  ## Extractor fold structure (claims C2, C4)  -/

theorem foldOpt_some (q : String → Option (List String)) :
    ∀ (sps : List String) (x : List String),
      sps.foldl (fun acc sp => match q sp with | some l => some l | none => acc)
        (some x) =
      match sps.foldl (fun acc sp => match q sp with | some l => some l | none => acc)
        none with
      | some v => some v
      | none => some x := by
  intro sps
  induction sps with
  | nil => intro x; rfl
  | cons sp rest ih =>
    intro x
    simp only [List.foldl]
    cases hq : q sp with
    | some l =>
      simp only [hq, ih l]
      split <;> rfl
    | none => simp only [hq, ih x]

theorem foldCode_eq_foldOpt (q : String → Option (List String)) :
    ∀ (sps : List String) (acc : List String),
      sps.foldl (fun a sp => match q sp with | some l => l | none => a) acc =
      match sps.foldl (fun a sp => match q sp with | some l => some l | none => a)
        none with
      | some v => v
      | none => acc := by
  intro sps
  induction sps with
  | nil => intro acc; rfl
  | cons sp rest ih =>
    intro acc
    simp only [List.foldl]
    cases hq : q sp with
    | some l =>
      simp only [hq, ih l, foldOpt_some q rest l]
      split <;> rfl
    | none => simp only [hq, ih acc]

theorem extractScanList_eq (t : String) :
    extractScanList t = (lastStringArray t).getD [] := by
  have h := foldCode_eq_foldOpt (fun sp => asStrList (jsonParse sp)) (spansOf t) []
  simp only [extractScanList, lastStringArray]
  rw [h]
  cases (spansOf t).foldl
      (fun a sp => match asStrList (jsonParse sp) with | some l => some l | none => a)
      none <;> rfl

/-- Claim C2 — counterexample.  The claim says the extractor returns the
*last* bracket span that parses as a list of strings.  On
`'["x"] []'` the last qualifying span is the empty array `[]`, yet the
extractor returns `["x"]`: the code cannot distinguish a qualifying empty
array from its initial value, so the fallback re-parses the first span. -/
theorem extractor_last_wins_cx :
    lastStringArray "[\"x\"] []" = some [] ∧
      extract "[\"x\"] []" = ["x"] ∧ ([] : List String) ≠ ["x"] := by
  refine ⟨by decide, by decide, by decide⟩

/-- Claim C2 — amended.  The last qualifying span wins whenever it is
non-empty (so integer citation arrays can never overwrite an earlier
string-array match, which then ends up non-empty); when the last
qualifying span is the empty array or no span qualifies, the single-span
fallback runs and may return an earlier string array.  All five mappings
listed in the claim hold. -/
theorem extractor_last_nonempty_wins :
    (∀ (t : String) (xs : List String),
      lastStringArray t = some xs → xs ≠ [] → extract t = xs) ∧
    extract "Shopify on registry [1][2].\n[\"shopify\"]" = ["shopify"] ∧
    extract "See [1] and [2] only." = [] ∧
    extract "[1, 2, 3]" = [] ∧
    extract "[]" = [] ∧
    extract "Sources [1][2].\n[\"google\", \"googlecloudplatform\"]" =
      ["google", "googlecloudplatform"] := by
  refine ⟨?_, by decide, by decide, by decide, by decide, by decide⟩
  intro t xs hlast hne
  have hscan : extractScanList t = xs := by
    rw [extractScanList_eq, hlast]
    rfl
  have hnempty : (extractScanList t).isEmpty = false := by
    rw [hscan]
    cases xs with
    | nil => exact absurd rfl hne
    | cons a l => rfl
  simp only [extract, hnempty, Bool.false_eq_true, if_false]
  exact hscan

/-- Claim C2 — witness for the amended theorem: on the grounded response
for the multi-candidate example the last qualifying span is the non-empty
`["google", "googlecloudplatform"]`, and the extractor returns exactly
it. -/
theorem extractor_last_nonempty_wins_witness :
    extract "Sources [1][2].\n[\"google\", \"googlecloudplatform\"]" =
      ["google", "googlecloudplatform"] :=
  extractor_last_nonempty_wins.1
    "Sources [1][2].\n[\"google\", \"googlecloudplatform\"]"
    ["google", "googlecloudplatform"] (by decide) (by decide)

/-- Claim C4 — counterexample.  The claim (and spec §4.5 step 3) says the
fallback is a *greedy* match from the first `[` to the last `]`.  The code
uses a lazy match to the *first* `]`.  On `'["a]", "b"]'` no scanned span
qualifies; the claimed greedy fallback would parse the whole text and
return `["a]", "b"]`, but the code's lazy span `["a]` fails to parse and
the extractor returns `[]`. -/
theorem extractor_fallback_greedy_cx :
    lastStringArray "[\"a]\", \"b\"]" = none ∧
      specGreedyResult "[\"a]\", \"b\"]" = ["a]", "b"] ∧
      extract "[\"a]\", \"b\"]" = [] := by
  refine ⟨by decide, by decide, by decide⟩

theorem lazySearch_none_of_noClose :
    ∀ l : List Char, (∀ x ∈ l, x ≠ ']') → lazySearch l = none := by
  intro l
  induction l with
  | nil => intro _; rfl
  | cons c r ih =>
    intro h
    have hr : ∀ x ∈ r, x ≠ ']' := fun x hx => h x (List.mem_cons_of_mem c hx)
    by_cases hc : c = '['
    · have hfc : firstClose r = none := by
        have hnil : r.dropWhile (· ≠ ']') = [] := by
          rw [List.dropWhile_eq_nil_iff]
          intro x hx
          simpa using hr x hx
        simp only [firstClose, hnil, List.isEmpty_nil, if_true]
      simp [lazySearch, hc, hfc, ih hr]
    · simp [lazySearch, hc, ih hr]

theorem firstClose_none_all (r : List Char) (h : firstClose r = none) :
    ∀ x ∈ r, x ≠ ']' := by
  intro x hx
  simp only [firstClose] at h
  split at h
  · next hemp =>
    rw [List.isEmpty_iff] at hemp
    rw [List.dropWhile_eq_nil_iff] at hemp
    simpa using hemp x hx
  · exact absurd h (by simp)

theorem lazySearch_eq_specLazySpan : ∀ l : List Char, lazySearch l = specLazySpan l := by
  intro l
  induction l with
  | nil => rfl
  | cons c r ih =>
    by_cases hc : c = '['
    · subst hc
      have hd : List.dropWhile (fun x => decide (x ≠ '[')) ('[' :: r) = '[' :: r := by
        simp [List.dropWhile_cons]
      simp only [lazySearch, specLazySpan, if_pos rfl, hd]
      cases hfc : firstClose r with
      | some content => rfl
      | none =>
        simp [lazySearch_none_of_noClose r (firstClose_none_all r hfc)]
    · have hd : List.dropWhile (fun x => decide (x ≠ '[')) (c :: r) =
          List.dropWhile (fun x => decide (x ≠ '[')) r := by
        simp [List.dropWhile_cons, hc]
      simp only [lazySearch, if_neg hc, ih, specLazySpan, hd]

/-- Claim C4 — amended.  When no scanned non-nested span qualifies as a
list of strings, the extractor falls back to a single *non-greedy* match
spanning from the first `[` in the text to the first `]` after it, parses
that one span as a literal, and accepts it only if it is a list whose
elements are all strings. -/
theorem extractor_fallback_lazy (t : String) (h : lastStringArray t = none) :
    extract t =
      (match specLazySpan t.data with
       | some sp => (asStrList (jsonParse (String.mk sp))).getD []
       | none => []) := by
  have hscan : extractScanList t = [] := by
    rw [extractScanList_eq, h]
    rfl
  simp only [extract, hscan, List.isEmpty_nil, if_true, lazySearch_eq_specLazySpan]

/-- Claim C4 — witness: on the counterexample text no scanned span
qualifies, and the extractor's result coincides with the lazy single-span
fallback (which rejects the unparsable span `["a]`, leaving `[]`). -/
theorem extractor_fallback_lazy_witness :
    extract "[\"a]\", \"b\"]" =
      (match specLazySpan ("[\"a]\", \"b\"]" : String).data with
       | some sp => (asStrList (jsonParse (String.mk sp))).getD []
       | none => []) :=
  extractor_fallback_lazy "[\"a]\", \"b\"]" (by decide)

/-!  ## 429 classifier (claims C3, C7)  -/

/-- Claim C3 — counterexample.  The claim says `isDailyExhausted` is true
iff the message contains "limit: 0" matched *case-insensitively*.  The
code's search carries no IGNORECASE flag: a body whose message is
`"Limit: 0"` matches case-insensitively but the classifier reports
`false`. -/
theorem parse429_case_sensitivity_cx :
    msgOf "\x7b\"error\": \x7b\"message\": \"Limit: 0\"\x7d\x7d" = some "Limit: 0" ∧
      containsLimitZeroCI "Limit: 0" = true ∧
      parse429 "\x7b\"error\": \x7b\"message\": \"Limit: 0\"\x7d\x7d" = (false, 65) := by
  refine ⟨by decide, by decide, by decide⟩

/-- Claim C3 — amended.  For every body that parses as structured data
with an error-message field, `isDailyExhausted` is true iff the message
contains `limit:` followed by optional whitespace and `0`, matched
*case-sensitively*. -/
theorem parse429_daily_iff_limit_zero (body : String) (msg : String)
    (h : msgOf body = some msg) :
    (parse429 body).1 = containsLimitZero msg := by
  simp only [msgOf] at h
  split at h
  · next fields heq1 =>
    split at h
    · next ef heq2 =>
      split at h
      · next msg' heq3 =>
        injection h with h
        subst h
        simp [parse429, heq1, heq2, heq3]
      · exact absurd h (by simp)
    · exact absurd h (by simp)
  · exact absurd h (by simp)

/-- Claim C3 — witness: a genuine lowercase daily-exhaustion body is
classified as daily-dead. -/
theorem parse429_daily_iff_limit_zero_witness :
    (parse429 "\x7b\"error\": \x7b\"message\": \"Quota exceeded: limit: 0 for model\"\x7d\x7d").1 =
      containsLimitZero "Quota exceeded: limit: 0 for model" :=
  parse429_daily_iff_limit_zero
    "\x7b\"error\": \x7b\"message\": \"Quota exceeded: limit: 0 for model\"\x7d\x7d"
    "Quota exceeded: limit: 0 for model" (by decide)

theorem processDetails_of_hints :
    ∀ (ds : List Json) (hs : List String), detailHints ds = some hs →
      ∀ d : Int, processDetails ds d =
        hs.foldl (fun a rs => (leadingInt rs).getD a) d := by
  intro ds
  induction ds with
  | nil =>
    intro hs h d
    simp only [detailHints] at h
    injection h with h
    subst h
    rfl
  | cons j rest ih =>
    intro hs h d
    cases j with
    | jnull => exact absurd h (by simp [detailHints])
    | jbool b => exact absurd h (by simp [detailHints])
    | jnum s => exact absurd h (by simp [detailHints])
    | jstr s => exact absurd h (by simp [detailHints])
    | jarr xs => exact absurd h (by simp [detailHints])
    | jobj f =>
      simp only [detailHints] at h
      split at h
      · next ts heq =>
        by_cases hew : pyEndsWith ts "RetryInfo"
        · rw [if_pos hew] at h
          split at h
          · next rs heq2 =>
            rw [Option.map_eq_some'] at h
            obtain ⟨hs', hrest, hcons⟩ := h
            subst hcons
            simp only [processDetails, heq, if_pos hew, heq2, List.foldl]
            cases hli : leadingInt rs with
            | some n => simp only [hli, ih hs' hrest n, Option.getD_some]
            | none => simp only [hli, ih hs' hrest d, Option.getD_none]
          all_goals exact absurd h (by simp)
        · rw [if_neg hew] at h
          simp only [processDetails, heq, if_neg hew]
          exact ih hs h d
      all_goals exact absurd h (by simp)

/-- Claim C7 — the classifier never raises (it is modelled as a total
function; every Python exception path is a value return): an unparsable
body yields `(false, 65)`; with a single structured retry hint whose value
has a leading integer, `retryDelaySeconds` is that integer; with no hint,
or a hint without a leading integer, it stays 65. -/
theorem parse429_defaults_and_hint (body : String) (rd : String) (n : Int) :
    ((jsonParse body).isNone = true → parse429 body = (false, 65)) ∧
    (hintsOf body = some [] → (parse429 body).2 = 65) ∧
    (hintsOf body = some [rd] → leadingInt rd = some n → (parse429 body).2 = n) ∧
    (hintsOf body = some [rd] → leadingInt rd = none → (parse429 body).2 = 65) := by
  have hmain : ∀ hs : List String, hintsOf body = some hs →
      (parse429 body).2 = hs.foldl (fun a rs => (leadingInt rs).getD a) 65 := by
    intro hs h
    simp only [hintsOf] at h
    split at h
    · next fields heq1 =>
      split at h
      · next ef heq2 =>
        split at h
        · next msg' heq3 =>
          split at h
          · next ds heq4 =>
            simp [parse429, heq1, heq2, heq3, heq4, processDetails_of_hints ds hs h 65]
          · exact absurd h (by simp)
        · exact absurd h (by simp)
      · exact absurd h (by simp)
    · exact absurd h (by simp)
  refine ⟨?_, ?_, ?_, ?_⟩
  · intro h
    rw [Option.isNone_iff_eq_none] at h
    simp [parse429, h]
  · intro h
    rw [hmain [] h]
    rfl
  · intro h hli
    rw [hmain [rd] h]
    simp [hli]
  · intro h hli
    rw [hmain [rd] h]
    simp [hli]

/-- Claim C7 — witness: the malformed body degrades to the defaults, and
the canonical `"57s"` RetryInfo body yields a 57-second delay. -/
theorem parse429_defaults_and_hint_witness :
    parse429 "not valid json \x7b\x7b\x7b\x7b" = (false, 65) ∧
      (parse429 "\x7b\"error\": \x7b\"details\": [\x7b\"@type\": \"type.googleapis.com/google.rpc.RetryInfo\", \"retryDelay\": \"57s\"\x7d]\x7d\x7d").2 = 57 := by
  constructor
  · exact (parse429_defaults_and_hint "not valid json \x7b\x7b\x7b\x7b" "" 0).1 (by decide)
  · exact (parse429_defaults_and_hint
      "\x7b\"error\": \x7b\"details\": [\x7b\"@type\": \"type.googleapis.com/google.rpc.RetryInfo\", \"retryDelay\": \"57s\"\x7d]\x7d\x7d"
      "57s" 57).2.2.1 (by decide) (by decide)

/-!  ## Orchestrator sanitise/verify phase (claim C6)  -/

theorem verifyLoop_char (verify : String → Option Bool) :
    ∀ l : List String, verifyLoop verify l =
      match l.find? (fun c => decide (verify c = some true)) with
      | some c => (some ("https://hub.docker.com/u/" ++ c), "found")
      | none => (none, "not_found") := by
  intro l
  induction l with
  | nil => rfl
  | cons u rest ih =>
    cases hv : verify u with
    | none => simp [verifyLoop, hv, ih, List.find?_cons]
    | some b =>
      cases b with
      | true => simp [verifyLoop, hv, List.find?_cons]
      | false => simp [verifyLoop, hv, ih, List.find?_cons]

/-- Claim C6 — for a non-empty extracted candidate list the orchestrator
sanitises (strip to `[a-z0-9-]`, keep lengths 2–64, preserve order as a
sublist of the stripped candidates) and then returns `found` with exactly
the first sanitised candidate on which `verify` is `some true`, skipping
`some false` and `none` alike, and `not_found` when no candidate
verifies. -/
theorem orchestrator_verify_first_true (cands : List String)
    (verify : String → Option Bool) (_hne : cands ≠ []) :
    (discoverVerify cands verify =
      match (validOf cands).find? (fun c => decide (verify c = some true)) with
      | some c => (some ("https://hub.docker.com/u/" ++ c), "found")
      | none => (none, "not_found")) ∧
    (validOf cands).Sublist (cands.map sanitizeName) ∧
    (∀ c ∈ validOf cands,
      (2 ≤ c.length ∧ c.length ≤ 64) ∧ ∀ ch ∈ c.data, allowedChar ch = true) := by
  refine ⟨verifyLoop_char verify (validOf cands), List.filter_sublist _, ?_⟩
  intro c hc
  rw [validOf, List.mem_filter] at hc
  obtain ⟨hmem, hlen⟩ := hc
  refine ⟨by simpa using hlen, ?_⟩
  obtain ⟨a, _, ha⟩ := List.mem_map.mp hmem
  intro ch hch
  rw [← ha] at hch
  simpa [sanitizeName] using (List.mem_filter.mp hch).2

/-- Claim C6 — witness: with an injected verify that is `true` only for
the candidate at position 1 of the sanitised list, the orchestrator
returns `found` with exactly that candidate (`"First!"` sanitises to
`"irst"`, `"x"` is dropped by the length filter). -/
theorem orchestrator_verify_first_true_witness :
    discoverVerify ["First!", "x", "second-name"]
        (fun s => if s = "second-name" then some true else some false) =
      (some "https://hub.docker.com/u/second-name", "found") := by
  rw [(orchestrator_verify_first_true ["First!", "x", "second-name"]
    (fun s => if s = "second-name" then some true else some false)
    (by decide)).1]
  decide

/-!  ## Credential pool reset (claim C8)  -/

theorem dictGetD_map_false (l : List String) (k : String) :
    dictGetD (l.map fun a => (a, false)) k false = false := by
  simp only [dictGetD]
  cases hf : (l.map fun a => (a, false)).find? (fun p => p.1 = k) with
  | none => rfl
  | some pr =>
    have hmem := List.mem_of_find?_eq_some hf
    obtain ⟨a, _, ha⟩ := List.mem_map.mp hmem
    rw [← ha]

/-- Claim C8 — `configure`/`set_keys` is insensitive to all prior pool
state (in particular to a preceding configure-then-kill-everything round
trip), is idempotent, resets the cursor and throttle table, and leaves
every configured credential immediately usable at any non-negative
clock. -/
theorem setKeys_resets_pool (p q : Pool) (keysA fresh : List String)
    (now : Int) (k : String) :
    setKeys p fresh = setKeys q fresh ∧
    setKeys (setKeys p fresh) fresh = setKeys p fresh ∧
    setKeys (List.foldl (fun pl kk => kill pl kk) (setKeys p keysA) keysA) fresh =
      setKeys p fresh ∧
    (setKeys p fresh).index = 0 ∧
    (setKeys p fresh).blocked = [] ∧
    (0 ≤ now → k ∈ (setKeys p fresh).keys → isUsable (setKeys p fresh) now k = true) := by
  refine ⟨rfl, rfl, rfl, rfl, rfl, ?_⟩
  intro hnow _hk
  simp only [isUsable, deadOf, blockedUntil, setKeys, dictGetD_map_false,
    Bool.not_false, Bool.true_and]
  simp only [dictGetD]
  simpa using hnow

/-- Claim C8 — witness: configure two keys, kill both, reconfigure with a
fresh pair; the result is the pristine pool of the fresh pair and its
first key is usable at clock 0. -/
theorem setKeys_resets_pool_witness :
    setKeys (List.foldl (fun pl kk => kill pl kk)
        (setKeys emptyPool ["a", "b"]) ["a", "b"]) ["c", "d"] =
      setKeys emptyPool ["c", "d"] ∧
    isUsable (setKeys emptyPool ["c", "d"]) 0 "c" = true := by
  refine ⟨(setKeys_resets_pool emptyPool emptyPool ["a", "b"] ["c", "d"] 0 "c").2.2.1, ?_⟩
  exact (setKeys_resets_pool emptyPool emptyPool ["a", "b"] ["c", "d"] 0 "c").2.2.2.2.2
    (by decide) (by decide)

/-!  ## Round-robin scan (claim C9)  -/

theorem mod_cycle (a b n : Nat) (hn : 0 < n) (hb : b < n) :
    (a + (b + n - a % n) % n) % n = b := by
  rw [Nat.add_mod_mod]
  have hx : a % n < n := Nat.mod_lt _ hn
  have hq := Nat.div_add_mod a n
  have hrw : a + (b + n - a % n) = n * (a / n) + (b + n) := by omega
  rw [hrw, Nat.mul_add_mod, Nat.add_mod_right]
  exact Nat.mod_eq_of_lt hb

theorem coverage (p : Pool) (k : String) (hk : k ∈ p.keys) :
    ∃ i < p.keys.length, p.keys.getD ((p.index + i) % p.keys.length) "" = k := by
  obtain ⟨j, hj, hjk⟩ := List.mem_iff_getElem.mp hk
  have hlen : 0 < p.keys.length := lt_of_le_of_lt (Nat.zero_le j) hj
  refine ⟨(j + p.keys.length - p.index % p.keys.length) % p.keys.length,
    Nat.mod_lt _ hlen, ?_⟩
  rw [mod_cycle p.index j p.keys.length hlen hj]
  rw [List.getD_eq_getElem _ _ hj]
  exact hjk

theorem nextUsableAux_some (now : Int) :
    ∀ (c : Nat) (p : Pool) (k : String), p.keys ≠ [] →
      (nextUsableAux now c p).1 = some k →
      isUsable p now k = true ∧ k ∈ p.keys := by
  intro c
  induction c with
  | zero => intro p k _ h; exact absurd h (by simp [nextUsableAux])
  | succ n ih =>
    intro p k hne h
    simp only [nextUsableAux] at h
    split at h
    · next hu =>
      simp only at h
      injection h with h
      subst h
      refine ⟨hu, ?_⟩
      have hlen : 0 < p.keys.length := List.length_pos.mpr hne
      have hidx : p.index % p.keys.length < p.keys.length := Nat.mod_lt _ hlen
      rw [List.getD_eq_getElem _ _ hidx]
      exact List.getElem_mem hidx
    · next hu =>
      have := ih (rotate p) k hne h
      exact this

theorem nextUsableAux_none (now : Int) :
    ∀ (c : Nat) (p : Pool), p.keys ≠ [] →
      (nextUsableAux now c p).1 = none →
      ∀ i < c, isUsable p now (p.keys.getD ((p.index + i) % p.keys.length) "") = false := by
  intro c
  induction c with
  | zero => intro p _ _ i hi; omega
  | succ n ih =>
    intro p hne h i hi
    simp only [nextUsableAux] at h
    split at h
    · next hu => exact absurd h (by simp)
    · next hu =>
      have hlen : 0 < p.keys.length := List.length_pos.mpr hne
      have hmax : max p.keys.length 1 = p.keys.length := Nat.max_eq_left hlen
      cases i with
      | zero =>
        simp only [Nat.add_zero]
        exact Bool.not_eq_true _ ▸ hu
      | succ i' =>
        have hrec := ih (rotate p) hne h i' (by omega)
        simp only [rotate, hmax] at hrec
        rw [Nat.mod_add_mod] at hrec
        have harr : p.index + 1 + i' = p.index + (i' + 1) := by omega
        rw [harr] at hrec
        exact hrec

theorem nextUsableAux_all_none (now : Int) :
    ∀ (c : Nat) (p : Pool), p.keys ≠ [] →
      (∀ k ∈ p.keys, isUsable p now k = false) →
      (nextUsableAux now c p).1 = none := by
  intro c
  induction c with
  | zero => intro p _ _; rfl
  | succ n ih =>
    intro p hne hall
    simp only [nextUsableAux]
    have hlen : 0 < p.keys.length := List.length_pos.mpr hne
    have hidx : p.index % p.keys.length < p.keys.length := Nat.mod_lt _ hlen
    have hmem : p.keys.getD (p.index % p.keys.length) "" ∈ p.keys := by
      rw [List.getD_eq_getElem _ _ hidx]
      exact List.getElem_mem hidx
    rw [hall _ hmem]
    simp only [Bool.false_eq_true, if_false]
    exact ih (rotate p) hne hall

/-- Claim C9 — `nextUsable` (a scan of at most `len(keys)` positions
starting at the cursor) returns `none` exactly when every credential is
dead or currently throttled, and any returned credential is a usable
member of the pool; in particular with at least one usable credential it
always returns a value. -/
theorem nextUsable_some_iff (p : Pool) (now : Int) :
    ((nextUsable p now).1 = none ↔ ∀ k ∈ p.keys, isUsable p now k = false) ∧
    (∀ k, (nextUsable p now).1 = some k →
      isUsable p now k = true ∧ k ∈ p.keys) := by
  by_cases hemp : p.keys.isEmpty
  · have hkeys : p.keys = [] := List.isEmpty_iff.mp hemp
    constructor
    · simp [nextUsable, hemp, hkeys]
    · intro k h
      rw [nextUsable, if_pos hemp] at h
      exact absurd h (by simp)
  · have hkeys : p.keys ≠ [] := by simpa [List.isEmpty_iff] using hemp
    constructor
    · constructor
      · intro h k hk
        obtain ⟨i, hi, hik⟩ := coverage p k hk
        have := nextUsableAux_none now p.keys.length p hkeys
          (by rwa [nextUsable, if_neg hemp] at h) i hi
        rwa [hik] at this
      · intro hall
        rw [nextUsable, if_neg hemp]
        exact nextUsableAux_all_none now p.keys.length p hkeys hall
    · intro k h
      exact nextUsableAux_some now p.keys.length p k hkeys
        (by rwa [nextUsable, if_neg hemp] at h)

/-- Claim C9 — witness: in a two-key pool with the first key dead, the
scan returns the second key, which is usable and a pool member. -/
theorem nextUsable_some_iff_witness :
    isUsable ⟨["a", "b"], 0, [], [("a", true), ("b", false)]⟩ 0 "b" = true ∧
      "b" ∈ (⟨["a", "b"], 0, [], [("a", true), ("b", false)]⟩ : Pool).keys :=
  (nextUsable_some_iff ⟨["a", "b"], 0, [], [("a", true), ("b", false)]⟩ 0).2
    "b" (by decide)

/-!  ## Empty-pool short circuit (claim C10)  -/

/-- Claim C10 — a discovery call starting with an empty pool, when the
environment fallback also yields no credentials, returns `no_keys` and
issues zero inference requests (empty request trace). -/
theorem discover_no_keys (env : ReqEnv) (fuel : Nat)
    (verify : String → Option Bool) (envVars : List (String × String))
    (pool : Pool) (now : Int) (h1 : pool.keys = [])
    (h2 : (loadKeysFromEnv envVars).getD [] = []) :
    runStatus (discover env fuel verify envVars pool now) = "no_keys" ∧
    runUrl (discover env fuel verify envVars pool now) = none ∧
    runTrace (discover env fuel verify envVars pool now) = [] := by
  have hemp : pool.keys.isEmpty = true := by rw [h1]; rfl
  cases hl : loadKeysFromEnv envVars with
  | none =>
    simp only [discover, hemp, if_true, hl]
    simp [runStatus, runUrl, runTrace, hemp]
  | some ks =>
    have hks : ks = [] := by simpa [hl] using h2
    subst hks
    simp only [discover, hemp, if_true, hl]
    simp [runStatus, runUrl, runTrace, setKeys]

/-- Claim C10 — witness: empty pool, empty environment. -/
theorem discover_no_keys_witness :
    runStatus (discover (fun _ _ _ => (.exc, 0)) 5 (fun _ => some false) [] emptyPool 0) =
      "no_keys" ∧
    runUrl (discover (fun _ _ _ => (.exc, 0)) 5 (fun _ => some false) [] emptyPool 0) =
      none ∧
    runTrace (discover (fun _ _ _ => (.exc, 0)) 5 (fun _ => some false) [] emptyPool 0) =
      [] :=
  discover_no_keys (fun _ _ _ => (.exc, 0)) 5 (fun _ => some false) [] emptyPool 0
    (by decide) (by decide)

/-!  ## Scheduler-loop infrastructure (claims C1, C5)  -/

theorem nextUsableAux_fields (now : Int) :
    ∀ (c : Nat) (p : Pool),
      (nextUsableAux now c p).2.keys = p.keys ∧
      (nextUsableAux now c p).2.blocked = p.blocked ∧
      (nextUsableAux now c p).2.deadMap = p.deadMap := by
  intro c
  induction c with
  | zero => intro p; exact ⟨rfl, rfl, rfl⟩
  | succ n ih =>
    intro p
    simp only [nextUsableAux]
    split
    · exact ⟨rfl, rfl, rfl⟩
    · exact ih (rotate p)

theorem nextUsable_fields (p : Pool) (now : Int) :
    (nextUsable p now).2.keys = p.keys ∧
    (nextUsable p now).2.blocked = p.blocked ∧
    (nextUsable p now).2.deadMap = p.deadMap := by
  simp only [nextUsable]
  split
  · exact ⟨rfl, rfl, rfl⟩
  · exact nextUsableAux_fields now p.keys.length p

theorem liveKeys_nextUsable (p : Pool) (now : Int) :
    liveKeys (nextUsable p now).2 = liveKeys p := by
  simp only [liveKeys, deadOf, (nextUsable_fields p now).1,
    (nextUsable_fields p now).2.2]

theorem blockedUntil_nextUsable (p : Pool) (now : Int) (k : String) :
    blockedUntil (nextUsable p now).2 k = blockedUntil p k := by
  simp only [blockedUntil, (nextUsable_fields p now).2.1]

theorem sleepAmount_poolSwap (st : MState) :
    sleepAmount { st with pool := (nextUsable st.pool st.now).2 } = sleepAmount st := by
  simp only [sleepAmount, blockedUntil, liveKeys_nextUsable,
    (nextUsable_fields st.pool st.now).2.1]

theorem waitForAnyKey_of_live (st : MState) (k : String) (ks : List String)
    (hlk : liveKeys st.pool = k :: ks) :
    waitForAnyKey st =
      (if 0 < MAX_TOTAL_WAIT ∧ MAX_TOTAL_WAIT < st.spent + sleepAmount st then
        if MAX_TOTAL_WAIT - st.spent ≤ 0 then
          (false, { st with spent := MAX_TOTAL_WAIT })
        else
          (true, { st with
            now := st.now + (MAX_TOTAL_WAIT - st.spent)
            spent := MAX_TOTAL_WAIT })
      else
        (true, { st with
          now := st.now + sleepAmount st
          spent := st.spent + sleepAmount st })) := by
  simp only [waitForAnyKey, sleepAmount, hlk]

theorem sleepAmount_pos (st : MState) : 1 ≤ sleepAmount st := by
  simp only [sleepAmount]
  split
  · omega
  · exact le_max_right _ _

theorem waitForAnyKey_true_bounds (st : MState)
    (hlive : liveKeys st.pool ≠ [])
    (h1 : (waitForAnyKey st).1 = true)
    (h0 : 0 ≤ st.spent) (h6 : st.spent ≤ MAX_TOTAL_WAIT) :
    0 ≤ (waitForAnyKey st).2.spent ∧ (waitForAnyKey st).2.spent ≤ MAX_TOTAL_WAIT := by
  cases hlk : liveKeys st.pool with
  | nil => exact absurd hlk hlive
  | cons k ks =>
    rw [waitForAnyKey_of_live st k ks hlk] at h1 ⊢
    have hs := sleepAmount_pos st
    split at h1
    · next hcap =>
      split at h1
      · exact absurd h1 (by simp)
      · next hrem =>
        rw [if_pos hcap, if_neg hrem]
        dsimp only
        simp [MAX_TOTAL_WAIT]
    · next hcap =>
      rw [if_neg hcap]
      dsimp only
      simp only [MAX_TOTAL_WAIT] at hcap h6 ⊢
      omega

theorem waitForAnyKey_false_spent (st : MState)
    (hlive : liveKeys st.pool ≠ [])
    (h1 : (waitForAnyKey st).1 = false) :
    (waitForAnyKey st).2.spent = MAX_TOTAL_WAIT := by
  cases hlk : liveKeys st.pool with
  | nil => exact absurd hlk hlive
  | cons k ks =>
    rw [waitForAnyKey_of_live st k ks hlk] at h1 ⊢
    split at h1
    · next hcap =>
      split at h1
      · next hrem =>
        rw [if_pos hcap, if_pos hrem]
      · exact absurd h1 (by simp)
    · exact absurd h1 (by simp)

theorem waitForAnyKey_locals (st : MState) :
    (waitForAnyKey st).2.trace = st.trace ∧
    (waitForAnyKey st).2.tried = st.tried ∧
    (waitForAnyKey st).2.triedPlain = st.triedPlain ∧
    (waitForAnyKey st).2.pool = st.pool := by
  simp only [waitForAnyKey]
  split
  · exact ⟨rfl, rfl, rfl, rfl⟩
  · split
    · split
      · exact ⟨rfl, rfl, rfl, rfl⟩
      · exact ⟨rfl, rfl, rfl, rfl⟩
    · exact ⟨rfl, rfl, rfl, rfl⟩

theorem tryModels_spent (env : ReqEnv) :
    ∀ (ms : List String) (st : MState) (key : String),
      (tryModels env st key ms).1.spent = st.spent := by
  intro ms
  induction ms with
  | nil => intro st key; rfl
  | cons model rest ih =>
    intro st key
    simp only [tryModels]
    split
    · exact ih st key
    · split
      · rfl
      · split
        · rfl
        · split
          · exact ih _ key
          · split
            · exact ih _ key
            · split
              · rfl
              · exact ih _ key
      · exact ih _ key

theorem tryModels_done_status (env : ReqEnv) :
    ∀ (ms : List String) (st : MState) (key : String)
      (res : Option (List String) × String),
      (tryModels env st key ms).2 = .done res → res.2 = "ok" := by
  intro ms
  induction ms with
  | nil =>
    intro st key res h
    simp only [tryModels] at h
    exact InnerRes.noConfusion h
  | cons model rest ih =>
    intro st key res h
    simp only [tryModels] at h
    split at h
    · exact ih st key res h
    · split at h
      · next text =>
        simp only at h
        injection h with h
        rw [← h]
      · split at h
        · exact absurd h (by simp)
        · split at h
          · exact ih _ key res h
          · split at h
            · exact ih _ key res h
            · split at h
              · exact absurd h (by simp)
              · exact ih _ key res h
      · exact ih _ key res h

theorem callLoop_daily_dead (env : ReqEnv) :
    ∀ (fuel : Nat) (st stF : MState) (r : Option (List String)),
      callLoop env fuel st = some (stF, (r, "daily_dead")) →
      liveKeys stF.pool = [] := by
  intro fuel
  induction fuel with
  | zero =>
    intro st stF r h
    exact absurd h (by simp [callLoop])
  | succ n ih =>
    intro st stF r h
    simp only [callLoop] at h
    split at h
    · next hlive =>
      simp only [Option.some.injEq, Prod.mk.injEq] at h
      obtain ⟨h1, -⟩ := h
      rw [← h1]
      exact hlive
    · split at h
      · simp only [Option.some.injEq, Prod.mk.injEq] at h
        exact absurd h.2.2 (by decide)
      · split at h
        · split at h
          · exact ih _ stF r h
          · simp only [Option.some.injEq, Prod.mk.injEq] at h
            exact absurd h.2.2 (by decide)
        · split at h
          · next res heq =>
            have hok := tryModels_done_status env MODELS _ _ res heq
            simp only [Option.some.injEq, Prod.mk.injEq] at h
            rw [h.2] at hok
            simp at hok
          · exact ih _ stF r h
          · exact ih _ stF r h

theorem callLoop_max_wait (env : ReqEnv) :
    ∀ (fuel : Nat) (st stF : MState) (r : Option (List String)),
      0 ≤ st.spent → st.spent ≤ MAX_TOTAL_WAIT →
      callLoop env fuel st = some (stF, (r, "max_wait")) →
      stF.spent = MAX_TOTAL_WAIT := by
  intro fuel
  induction fuel with
  | zero =>
    intro st stF r _ _ h
    exact absurd h (by simp [callLoop])
  | succ n ih =>
    intro st stF r h0 h6 h
    simp only [callLoop] at h
    split at h
    · simp only [Option.some.injEq, Prod.mk.injEq] at h
      exact absurd h.2.2 (by decide)
    · next hlive =>
      split at h
      · simp only [Option.some.injEq, Prod.mk.injEq] at h
        exact absurd h.2.2 (by decide)
      · split at h
        · -- all live keys throttled: wait
          have hlive1 : liveKeys
              ({ st with pool := (nextUsable st.pool st.now).2 } : MState).pool ≠ [] := by
            simpa [liveKeys_nextUsable] using hlive
          split at h
          · next hw1 =>
            have hb := waitForAnyKey_true_bounds _ hlive1 hw1 h0 h6
            exact ih _ stF r hb.1 hb.2 h
          · next hw1 =>
            have hsp := waitForAnyKey_false_spent _ hlive1
              (by simpa using hw1)
            simp only [Option.some.injEq, Prod.mk.injEq] at h
            rw [← h.1]
            exact hsp
        · split at h
          · next res heq =>
            have hok := tryModels_done_status env MODELS _ _ res heq
            simp only [Option.some.injEq, Prod.mk.injEq] at h
            rw [h.2] at hok
            simp at hok
          · -- rotated: spent preserved
            refine ih _ stF r ?_ ?_ h
            · rw [tryModels_spent env MODELS _ _]
              exact h0
            · rw [tryModels_spent env MODELS _ _]
              exact h6
          · -- fell through: manual rotate, spent preserved
            refine ih _ stF r ?_ ?_ h <;>
              (dsimp only; rw [tryModels_spent env MODELS _ _]; assumption)

/-- Claim C1 — terminal outcomes of one discovery call.  (i) `daily_dead`
is returned only when every credential is daily-dead.  (ii) `max_wait` is
returned only with the cumulative sleep time at the 600-second ceiling
`MAX_TOTAL_WAIT_SECONDS` (every further sleep is at least one second, so
the next sleep would exceed the budget).  (iii) A state whose live
credentials are all merely throttled — with untried pairs and wait budget
remaining — never terminates by itself: the loop sleeps and re-enters. -/
theorem scheduler_terminal_outcomes (env : ReqEnv) (fuel : Nat) (pool : Pool)
    (now : Int) (st stF : MState) (r : Option (List String)) :
    (callGemini env fuel pool now = some (stF, (r, "daily_dead")) →
      liveKeys stF.pool = []) ∧
    (callGemini env fuel pool now = some (stF, (r, "max_wait")) →
      stF.spent = MAX_TOTAL_WAIT) ∧
    (liveKeys st.pool ≠ [] → remainingCount st ≠ 0 →
      (nextUsable st.pool st.now).1 = none →
      st.spent + sleepAmount st ≤ MAX_TOTAL_WAIT →
      callLoop env (fuel + 1) st =
        callLoop env fuel
          (waitForAnyKey { st with pool := (nextUsable st.pool st.now).2 }).2 ∧
      (waitForAnyKey { st with pool := (nextUsable st.pool st.now).2 }).1 = true) := by
  refine ⟨?_, ?_, ?_⟩
  · intro h
    simp only [callGemini] at h
    split at h
    · simp only [Option.some.injEq, Prod.mk.injEq] at h
      exact absurd h.2.2 (by decide)
    · exact callLoop_daily_dead env fuel _ stF r h
  · intro h
    simp only [callGemini] at h
    split at h
    · simp only [Option.some.injEq, Prod.mk.injEq] at h
      exact absurd h.2.2 (by decide)
    · exact callLoop_max_wait env fuel _ stF r (le_refl 0)
        (by show (0 : Int) ≤ MAX_TOTAL_WAIT; decide) h
  · intro hlive hrem hnu hsleep
    have hlive1 : liveKeys
        ({ st with pool := (nextUsable st.pool st.now).2 } : MState).pool ≠ [] := by
      simpa [liveKeys_nextUsable] using hlive
    have hw1 : (waitForAnyKey
        { st with pool := (nextUsable st.pool st.now).2 }).1 = true := by
      cases hlk : liveKeys
          ({ st with pool := (nextUsable st.pool st.now).2 } : MState).pool with
      | nil => exact absurd hlk hlive1
      | cons k ks =>
        rw [waitForAnyKey_of_live _ k ks hlk]
        have hcap : ¬(0 < MAX_TOTAL_WAIT ∧ MAX_TOTAL_WAIT <
            ({ st with pool := (nextUsable st.pool st.now).2 } : MState).spent +
            sleepAmount { st with pool := (nextUsable st.pool st.now).2 }) := by
          rw [sleepAmount_poolSwap st]
          dsimp only
          simp only [MAX_TOTAL_WAIT] at hsleep ⊢
          omega
        rw [if_neg hcap]
    refine ⟨?_, hw1⟩
    simp only [callLoop]
    rw [if_neg hlive, if_neg hrem, hnu]
    dsimp only
    simp [hw1]

/-- Claim C1 — witness.  A one-key pool killed by a `limit: 0` body ends
`daily_dead` with no live keys; a one-key pool parked by a 700-second
retry hint ends `max_wait` with exactly the 600-second budget spent; a
throttled-but-alive state with budget left passes the wait test. -/
theorem scheduler_terminal_outcomes_witness :
    liveKeys (finalState (callGemini envC1Dead 10 (setKeys emptyPool ["ka"]) 0)).pool
      = [] ∧
    (finalState (callGemini envC1Wait 10 (setKeys emptyPool ["ka"]) 0)).spent =
      MAX_TOTAL_WAIT ∧
    (waitForAnyKey { stC1Throttled with
      pool := (nextUsable stC1Throttled.pool stC1Throttled.now).2 }).1 = true := by
  refine ⟨?_, ?_, ?_⟩
  · exact (scheduler_terminal_outcomes envC1Dead 10 (setKeys emptyPool ["ka"]) 0
      stC1Throttled _ _).1 rfl
  · exact (scheduler_terminal_outcomes envC1Wait 10 (setKeys emptyPool ["ka"]) 0
      stC1Throttled _ _).2.1 rfl
  · exact ((scheduler_terminal_outcomes envC1Dead 0 emptyPool 0
      stC1Throttled stC1Throttled none).2.2 (by decide) (by decide) (by decide)
      (by decide)).2

/-!  ## Attempt tracking (claim C5)  -/

theorem countMode_append (tr : List (String × String × Bool))
    (e : String × String × Bool) (k m : String) (b : Bool) :
    countMode (tr ++ [e]) k m b =
      countMode tr k m b + (if e = (k, m, b) then 1 else 0) := by
  by_cases he : e = (k, m, b) <;>
    simp [countMode, List.filter_append, List.filter_cons, he]

theorem countMode_cons (e : String × String × Bool)
    (tr : List (String × String × Bool)) (k m : String) (b : Bool) :
    countMode (e :: tr) k m b =
      (if e = (k, m, b) then 1 else 0) + countMode tr k m b := by
  by_cases he : e = (k, m, b)
  · simp [countMode, List.filter_cons, he]
    omega
  · simp [countMode, List.filter_cons, he]

theorem countPair_cons (e : String × String × Bool)
    (tr : List (String × String × Bool)) (k m : String) :
    countPair (e :: tr) k m =
      (if e.1 = k ∧ e.2.1 = m then 1 else 0) + countPair tr k m := by
  by_cases he : e.1 = k ∧ e.2.1 = m
  · simp [countPair, List.filter_cons, he]
    omega
  · simp [countPair, List.filter_cons, he]

theorem countPair_split (tr : List (String × String × Bool)) (k m : String) :
    countPair tr k m = countMode tr k m false + countMode tr k m true := by
  induction tr with
  | nil => rfl
  | cons e r ih =>
    rw [countPair_cons, countMode_cons, countMode_cons, ih]
    obtain ⟨a, b2, c⟩ := e
    by_cases hk : a = k
    · subst hk
      by_cases hm : b2 = m
      · subst hm
        cases c
        · simp only [Prod.mk.injEq]
          simp
          omega
        · simp only [Prod.mk.injEq]
          simp
          omega
      · simp [hm]
    · simp [hk]

theorem TInv_fields {s t : MState} (ht : t.trace = s.trace)
    (h1 : t.tried = s.tried) (h2 : t.triedPlain = s.triedPlain)
    (h : TInv s) : TInv t := by
  intro k m
  rw [TInv] at h
  simp only [countMode] at *
  rw [ht, h1, h2]
  exact h k m

theorem TInv_afterRequest (st : MState) (key model : String) (dt : Int)
    (hnotin : (key, model) ∉ st.tried) (hinv : TInv st) :
    TInv (afterRequest st key model dt) := by
  intro k m
  obtain ⟨h1, h2, h3, h4⟩ := hinv k m
  dsimp only [afterRequest]
  rw [countMode_append, countMode_append]
  by_cases hpair : (k, m) = (key, model)
  · have hk : k = key := congrArg Prod.fst hpair
    have hm : m = model := congrArg (fun x => x.2) hpair
    subst hk
    subst hm
    cases hub : decide ((k, m) ∈ st.triedPlain) with
    | false =>
      have hnp : (k, m) ∉ st.triedPlain := of_decide_eq_false hub
      have hcf : countMode st.trace k m false = 0 := by
        by_contra hc
        rcases h3 (by omega) with hl | hr
        · exact hnotin hl
        · exact hnp hr
      refine ⟨?_, ?_, ?_, ?_⟩
      · rw [if_pos rfl]
        omega
      · rw [if_neg (by simp)]
        omega
      · intro _
        exact Or.inl (List.mem_cons_self _ _)
      · intro hc
        rw [if_neg (by simp)] at hc
        simp only [Nat.add_zero] at hc
        exact absurd (h4 hc).1 hnotin
    | true =>
      have hp : (k, m) ∈ st.triedPlain := of_decide_eq_true hub
      have hct : countMode st.trace k m true = 0 := by
        by_contra hc
        exact hnotin (h4 (by omega)).1
      refine ⟨?_, ?_, ?_, ?_⟩
      · rw [if_neg (by simp)]
        omega
      · rw [if_pos rfl]
        omega
      · intro hc
        rw [if_neg (by simp)] at hc
        simp only [Nat.add_zero] at hc
        rcases h3 hc with hl | hr
        · exact Or.inl (List.mem_cons_of_mem _ hl)
        · exact Or.inr hr
      · intro _
        exact ⟨List.mem_cons_self _ _, hp⟩
  · have hne1 : ((key, model, decide ((key, model) ∈ st.triedPlain)) :
        String × String × Bool) ≠ (k, m, false) := by
      intro he
      refine hpair ?_
      have hk := congrArg Prod.fst he
      have hm := congrArg (fun x => x.2.1) he
      simp only at hk hm
      rw [← hk, ← hm]
    have hne2 : ((key, model, decide ((key, model) ∈ st.triedPlain)) :
        String × String × Bool) ≠ (k, m, true) := by
      intro he
      refine hpair ?_
      have hk := congrArg Prod.fst he
      have hm := congrArg (fun x => x.2.1) he
      simp only at hk hm
      rw [← hk, ← hm]
    rw [if_neg hne1, if_neg hne2]
    simp only [Nat.add_zero]
    refine ⟨h1, h2, ?_, ?_⟩
    · intro hc
      rcases h3 hc with hl | hr
      · exact Or.inl (List.mem_cons_of_mem _ hl)
      · exact Or.inr hr
    · intro hc
      exact ⟨List.mem_cons_of_mem _ (h4 hc).1, (h4 hc).2⟩

theorem TInv_markPlain (st : MState) (key model : String) (dt : Int)
    (hnotin : (key, model) ∉ st.tried) (hnp : (key, model) ∉ st.triedPlain)
    (hinv : TInv st) :
    TInv (markPlain (afterRequest st key model dt) key model) := by
  have hR := TInv_afterRequest st key model dt hnotin hinv
  intro k m
  obtain ⟨h1, h2, h3, h4⟩ := hR k m
  dsimp only [markPlain]
  refine ⟨h1, h2, ?_, ?_⟩
  · intro hc
    by_cases hpair : (k, m) = (key, model)
    · right
      rw [hpair]
      exact List.mem_cons_self _ _
    · rcases h3 hc with hl | hr
      · left
        rw [List.mem_filter]
        refine ⟨hl, ?_⟩
        simp only [ne_eq, decide_eq_true_eq]
        exact hpair
      · right
        exact List.mem_cons_of_mem _ hr
  · intro hc
    obtain ⟨ht, hp⟩ := h4 hc
    by_cases hpair : (k, m) = (key, model)
    · rw [hpair] at hp
      dsimp only [afterRequest] at hp
      exact absurd hp hnp
    · refine ⟨?_, List.mem_cons_of_mem _ hp⟩
      rw [List.mem_filter]
      refine ⟨ht, ?_⟩
      simp only [ne_eq, decide_eq_true_eq]
      exact hpair

theorem tryModels_inv (env : ReqEnv) :
    ∀ (ms : List String) (st : MState) (key : String),
      TInv st → TInv (tryModels env st key ms).1 := by
  intro ms
  induction ms with
  | nil => intro st key h; exact h
  | cons model rest ih =>
    intro st key hinv
    simp only [tryModels]
    split
    · exact ih st key hinv
    · next hnotin =>
      split
      · exact TInv_afterRequest st key model _ hnotin hinv
      · split
        · exact TInv_afterRequest st key model
            (env key model (decide ((key, model) ∈ st.triedPlain))).2 hnotin hinv
        · split
          · next h400 =>
            exact ih _ key
              (TInv_markPlain st key model _ hnotin (of_decide_eq_false h400.2) hinv)
          · split
            · exact ih _ key (TInv_afterRequest st key model _ hnotin hinv)
            · split
              · exact TInv_afterRequest st key model
                  (env key model (decide ((key, model) ∈ st.triedPlain))).2 hnotin hinv
              · exact ih _ key (TInv_afterRequest st key model _ hnotin hinv)
      · exact ih _ key (TInv_afterRequest st key model _ hnotin hinv)

theorem callLoop_inv (env : ReqEnv) :
    ∀ (fuel : Nat) (st stF : MState) (r : Option (List String) × String),
      TInv st → callLoop env fuel st = some (stF, r) → TInv stF := by
  intro fuel
  induction fuel with
  | zero =>
    intro st stF r _ h
    exact absurd h (by simp [callLoop])
  | succ n ih =>
    intro st stF r hinv h
    simp only [callLoop] at h
    split at h
    · simp only [Option.some.injEq, Prod.mk.injEq] at h
      rw [← h.1]
      exact hinv
    · split at h
      · simp only [Option.some.injEq, Prod.mk.injEq] at h
        rw [← h.1]
        exact hinv
      · split at h
        · -- wait branch
          split at h
          · refine ih _ stF r ?_ h
            exact TInv_fields (waitForAnyKey_locals _).1
              (waitForAnyKey_locals _).2.1 (waitForAnyKey_locals _).2.2.1 hinv
          · simp only [Option.some.injEq, Prod.mk.injEq] at h
            rw [← h.1]
            exact TInv_fields (waitForAnyKey_locals _).1
              (waitForAnyKey_locals _).2.1 (waitForAnyKey_locals _).2.2.1 hinv
        · -- request branch
          rename_i key hkey
          split at h
          · rename_i res heq
            have hT : TInv (tryModels env
                { st with pool := (nextUsable st.pool st.now).2 } key MODELS).1 :=
              tryModels_inv env MODELS _ key hinv
            simp only [Option.some.injEq, Prod.mk.injEq] at h
            rw [h.1] at hT
            exact hT
          · refine ih _ stF r ?_ h
            exact tryModels_inv env MODELS _ key hinv
          · refine ih _ stF r ?_ h
            exact TInv_fields rfl rfl rfl (tryModels_inv env MODELS _ key hinv)

/-- Claim C5 — counterexample.  The claim says every (credential, model)
pair is sent at most one request per discovery call.  With a key whose
cheapest model rejects the grounded payload (HTTP 400), the code executes
`tried.discard(pair)` and later re-sends the *same* pair with the plain
payload: the pair appears twice in the request trace. -/
theorem pair_attempted_twice_cx :
    countPair (traceOf (callGemini envC5 10 (setKeys emptyPool ["k1"]) 0))
      "k1" "gemini-2.0-flash-lite" = 2 := by
  decide

/-- Claim C5 — amended.  Within one discovery call every
(credential, model, payload-mode) triple is attempted at most once, so a
(credential, model) pair is sent at most two requests — at most one
grounded and at most one plain (the latter only after the grounded payload
was rejected); the idempotent `tried`/`tried_plain` tracking enforces this
even across multiple wait cycles. -/
theorem pair_attempts_bounded (env : ReqEnv) (fuel : Nat) (pool : Pool)
    (now : Int) (k m : String) :
    countMode (traceOf (callGemini env fuel pool now)) k m false ≤ 1 ∧
    countMode (traceOf (callGemini env fuel pool now)) k m true ≤ 1 ∧
    countPair (traceOf (callGemini env fuel pool now)) k m ≤ 2 := by
  have key0 : TInv (⟨pool, [], [], 0, now, []⟩ : MState) := by
    intro k' m'
    refine ⟨by simp [countMode], by simp [countMode], ?_, ?_⟩ <;>
      · intro hc
        simp [countMode] at hc
  cases hrun : callGemini env fuel pool now with
  | none => simp [traceOf, countMode, countPair]
  | some pr =>
    obtain ⟨stF, r⟩ := pr
    have hTF : TInv stF := by
      simp only [callGemini] at hrun
      split at hrun
      · simp only [Option.some.injEq, Prod.mk.injEq] at hrun
        exact TInv_fields (by rw [← hrun.1]) (by rw [← hrun.1]) (by rw [← hrun.1]) key0
      · exact callLoop_inv env fuel _ stF r key0 hrun
    have h := hTF k m
    simp only [traceOf]
    rw [countPair_split]
    exact ⟨h.1, h.2.1, by omega⟩

end GeminiDiscover
